import Mathlib

/-!
Shallow embedding of the ranking-and-correlation core of the
COS452_texture_model repository: the sequence codec
(src/src/commands/sequence.py), the analyzer sort
(src/src/analysis/init), the sequence store state machine
(src/src/commands/sequence.py), and the correlation report builder
(src/src/commands/data.py), together with theorems about the
behaviour the specification describes.
-/

deriving instance DecidableEq for Except

namespace TextureModel

/-- The parsed contents of sequences.json: a JSON object mapping
sequence names to symbol lists, modelled as an association list in
insertion order (Python dict semantics, keys unique). -/
abbrev Coll := List (String × List String)

/-- Dictionary lookup on the parsed collection
(`read_sequences().get(sequence_name, None)`). -/
def lookupColl : Coll → String → Option (List String)
  | [], _ => none
  | (k, v) :: t, name => if k = name then some v else lookupColl t name

/-- seq_num_formatter from src/src/etc/consts.py: Python
format string 02d, a decimal rendering zero-padded to a minimum
width of 2. -/
def seq_num_formatter (n : Nat) : String :=
  if n < 10 then "0" ++ toString n else toString n

/-- The four distinct raise sites of SequenceError in
decode_sequence (src/src/commands/sequence.py), distinguished by
their message text. -/
inductive SequenceError
  | unknownSequence (name : String)
  | lengthMismatch (inputLen keyLen : Nat)
  | duplicateSymbol
  | unknownSymbol (sym : String)
  deriving DecidableEq, Repr

/-- The index the dict comprehension
`sequence_map = (key -> seq_num_formatter (index + 1))` assigns to a
key: the index of the last occurrence (later dict entries overwrite
earlier ones), tracked with an accumulator `base`. -/
def lastIdxFrom (k : String) (base : Nat) : List String → Option Nat
  | [] => none
  | x :: xs =>
    match lastIdxFrom k (base + 1) xs with
    | some i => some i
    | none => if x = k then some base else none

/-- Lookup in the sequence_map dict built by decode_sequence. -/
def seqMap (keys : List String) (k : String) : Option String :=
  (lastIdxFrom k 0 keys).map (fun i => seq_num_formatter (i + 1))

/-- The list comprehension `sequence_map key for key in input_sequence`:
left to right, raising the KeyError-derived SequenceError at the first
symbol absent from the map. -/
def mapSymbols (keys : List String) : List String → Except SequenceError (List String)
  | [] => .ok []
  | k :: ks =>
    match seqMap keys k with
    | none => .error (.unknownSymbol k)
    | some v =>
      match mapSymbols keys ks with
      | .ok vs => .ok (v :: vs)
      | .error e => .error e

/-- decode_sequence from src/src/commands/sequence.py, with the stored
collection passed explicitly (read_sequence name = lookupColl seqs name).
`(lookupColl seqs name).getD []` mirrors the Python truthiness test
`if not sequence_keys`, which identifies a missing entry with an empty
one.  len(set(input)) is input.dedup.length.  Note the final
try/except around the list comprehension is outside `if strict`, so
the unknown-symbol error is raised in both modes. -/
def decode_sequence (seqs : Coll) (name : String) (input : List String)
    (strict : Bool) : Except SequenceError (List String) :=
  let sequence_keys := (lookupColl seqs name).getD []
  if sequence_keys = [] then
    if strict then .error (.unknownSequence name) else .ok input
  else
    if strict then
      if input.length ≠ sequence_keys.length then
        .error (.lengthMismatch input.length sequence_keys.length)
      else if input.length ≠ input.dedup.length then
        .error .duplicateSymbol
      else mapSymbols sequence_keys input
    else mapSymbols sequence_keys input

theorem lastIdxFrom_eq_none {k : String} :
    ∀ {keys : List String} (base : Nat), lastIdxFrom k base keys = none ↔ k ∉ keys := by
  intro keys
  induction keys with
  | nil => intro base; simp [lastIdxFrom]
  | cons x xs ih =>
    intro base
    rw [lastIdxFrom]
    cases h : lastIdxFrom k (base + 1) xs with
    | some i =>
      have hk : k ∈ xs := by
        by_contra hk
        exact Option.noConfusion (((ih (base + 1)).mpr hk).symm.trans h)
      simp [List.mem_cons, hk]
    | none =>
      have hk : k ∉ xs := (ih (base + 1)).mp h
      by_cases hx : x = k
      · rw [if_pos hx]
        exact iff_of_false (fun hh => Option.noConfusion hh)
          (fun hh => hh (List.mem_cons.mpr (Or.inl hx.symm)))
      · have hkx : k ≠ x := fun hh => hx hh.symm
        rw [if_neg hx]
        exact iff_of_true rfl
          (fun hh => (List.mem_cons.mp hh).elim (fun h1 => hkx h1) (fun h2 => hk h2))

theorem lastIdxFrom_of_nodup {keys : List String} (hnd : keys.Nodup) {k : String}
    (hk : k ∈ keys) : ∀ base : Nat, lastIdxFrom k base keys = some (base + keys.indexOf k) := by
  induction keys with
  | nil => cases hk
  | cons x xs ih =>
    intro base
    rcases List.mem_cons.mp hk with h | hmem
    · subst h
      have hx : k ∉ xs := (List.nodup_cons.mp hnd).1
      rw [lastIdxFrom, lastIdxFrom_eq_none (base + 1) |>.mpr hx]
      simp [List.indexOf_cons_self]
    · have hne : x ≠ k := by
        rintro rfl
        exact (List.nodup_cons.mp hnd).1 hmem
      rw [lastIdxFrom, ih (List.nodup_cons.mp hnd).2 hmem (base + 1)]
      rw [List.indexOf_cons_ne _ hne]
      have harith : base + 1 + List.indexOf k xs = base + (List.indexOf k xs + 1) := by
        omega
      exact congrArg some harith

theorem seqMap_eq_none {keys : List String} {k : String} :
    seqMap keys k = none ↔ k ∉ keys := by
  rw [seqMap, Option.map_eq_none']
  exact lastIdxFrom_eq_none 0

theorem seqMap_of_nodup {keys : List String} (hnd : keys.Nodup) {k : String}
    (hk : k ∈ keys) : seqMap keys k = some (seq_num_formatter (keys.indexOf k + 1)) := by
  rw [seqMap, lastIdxFrom_of_nodup hnd hk 0]
  simp

theorem mapSymbols_of_nodup {keys : List String} (hnd : keys.Nodup) :
    ∀ input : List String, (∀ k ∈ input, k ∈ keys) →
      mapSymbols keys input =
        .ok (input.map (fun k => seq_num_formatter (keys.indexOf k + 1))) := by
  intro input
  induction input with
  | nil => intro _; rfl
  | cons k ks ih =>
    intro hmem
    rw [mapSymbols, seqMap_of_nodup hnd (hmem k (List.mem_cons_self k ks)),
      ih (fun a ha => hmem a (List.mem_cons_of_mem k ha))]
    simp

theorem mapSymbols_isOk_of_mem {keys : List String} :
    ∀ input : List String, (∀ k ∈ input, k ∈ keys) →
      ∃ out, mapSymbols keys input = .ok out := by
  intro input
  induction input with
  | nil => exact fun _ => ⟨[], rfl⟩
  | cons k ks ih =>
    intro hmem
    have hk : k ∈ keys := hmem k (List.mem_cons_self k ks)
    rcases hv : seqMap keys k with _ | v
    · exact absurd (seqMap_eq_none.mp hv) (by simpa using hk)
    · rcases ih (fun a ha => hmem a (List.mem_cons_of_mem k ha)) with ⟨out, hout⟩
      exact ⟨v :: out, by rw [mapSymbols, hv, hout]⟩

theorem mapSymbols_error_of_missing {keys : List String} :
    ∀ input : List String, (∃ k ∈ input, k ∉ keys) →
      ∃ s ∈ input, s ∉ keys ∧ mapSymbols keys input = .error (.unknownSymbol s) := by
  intro input
  induction input with
  | nil => rintro ⟨k, hk, _⟩; cases hk
  | cons k ks ih =>
    intro hex
    rcases hv : seqMap keys k with _ | v
    · exact ⟨k, List.mem_cons_self k ks, seqMap_eq_none.mp hv, by rw [mapSymbols, hv]⟩
    · have hk : k ∈ keys := by
        by_contra hk
        rw [seqMap_eq_none.mpr hk] at hv
        cases hv
      have hex2 : ∃ a ∈ ks, a ∉ keys := by
        rcases hex with ⟨a, ha, hna⟩
        rcases List.mem_cons.mp ha with h | h
        · exact absurd (h ▸ hk) hna
        · exact ⟨a, h, hna⟩
      rcases ih hex2 with ⟨s, hs, hns, herr⟩
      exact ⟨s, List.mem_cons_of_mem k hs, hns, by rw [mapSymbols, hv, herr]⟩

theorem length_eq_dedup_length_iff {l : List String} :
    l.length = l.dedup.length ↔ l.Nodup := by
  constructor
  · intro h
    have hs : l.dedup.Sublist l := l.dedup_sublist
    have he : l.dedup = l := hs.eq_of_length h.symm
    rw [← he]
    exact l.nodup_dedup
  · intro h
    rw [List.dedup_eq_self.mpr h]

/-- C10: a name stored with an empty symbol list is treated exactly like an
unregistered name: strict decode fails with the unknown-sequence error, and
non-strict decode returns the input unchanged, for every input list. -/
theorem decode_empty_stored (seqs : Coll) (name : String) (input : List String)
    (h : lookupColl seqs name = some []) :
    decode_sequence seqs name input true = .error (.unknownSequence name) ∧
    decode_sequence seqs name input false = .ok input := by
  constructor <;> simp [decode_sequence, h]

theorem decode_empty_stored_witness :
    lookupColl [("empty", ([] : List String))] "empty" = some [] ∧
    (decode_sequence [("empty", [])] "empty" ["a"] true =
      .error (.unknownSequence "empty") ∧
    decode_sequence [("empty", [])] "empty" ["a"] false = .ok ["a"]) :=
  ⟨rfl, decode_empty_stored [("empty", [])] "empty" ["a"] rfl⟩

/-- C1 counterexample: the empty list is a permutation of the empty symbol
list, and the name "s" is stored (with an empty Sequence), yet strict decode
fails with the unknown-sequence error instead of succeeding with the empty
label list. -/
theorem decode_perm_counterexample :
    List.Perm ([] : List String) [] ∧
    lookupColl [("s", ([] : List String))] "s" = some [] ∧
    decode_sequence [("s", [])] "s" [] true = .error (.unknownSequence "s") :=
  ⟨List.Perm.refl [], rfl, by decide⟩

/-- C1 (amended): for every stored Sequence with a nonempty (and, per the
data model, duplicate-free) symbol list and every input list that is a
permutation of its symbols, strict decode succeeds and returns, in input
order, the zero-padded width-2 decimal string of each input symbol's
1-based position in the stored Sequence. -/
theorem decode_perm_inverts (seqs : Coll) (name : String) (keys input : List String)
    (hfind : lookupColl seqs name = some keys) (hne : keys ≠ [])
    (hnd : keys.Nodup) (hperm : List.Perm input keys) :
    decode_sequence seqs name input true =
      .ok (input.map (fun k => seq_num_formatter (keys.indexOf k + 1))) := by
  have hlen : input.length = keys.length := hperm.length_eq
  have hind : input.Nodup := hperm.nodup_iff.mpr hnd
  have hmem : ∀ k ∈ input, k ∈ keys := fun k hk => hperm.subset hk
  rw [decode_sequence]
  simp only [hfind, Option.getD_some]
  rw [if_neg hne]
  simp only [if_true]
  rw [if_neg (by simp [hlen]),
    if_neg (by simp [length_eq_dedup_length_iff.mpr hind]),
    mapSymbols_of_nodup hnd input hmem]

theorem decode_perm_inverts_witness :
    lookupColl [("name", ["c", "a", "b"])] "name" = some ["c", "a", "b"] ∧
    (["c", "a", "b"] : List String) ≠ [] ∧
    (["c", "a", "b"] : List String).Nodup ∧
    List.Perm ["a", "b", "c"] ["c", "a", "b"] ∧
    decode_sequence [("name", ["c", "a", "b"])] "name" ["a", "b", "c"] true =
      .ok ["02", "03", "01"] := by
  refine ⟨rfl, by decide, by decide, by decide, ?_⟩
  have h := decode_perm_inverts [("name", ["c", "a", "b"])] "name" ["c", "a", "b"]
    ["a", "b", "c"] rfl (by decide) (by decide) (by decide)
  simpa using h

/-- The five possible outcomes of a decode call, one per constructor of
SequenceError plus success. -/
inductive DecodeOutcome
  | success
  | unknownSeq
  | lengthMismatch
  | duplicate
  | unknownSym
  deriving DecidableEq, Repr

def outcomeOf : Except SequenceError (List String) → DecodeOutcome
  | .ok _ => .success
  | .error (.unknownSequence _) => .unknownSeq
  | .error (.lengthMismatch _ _) => .lengthMismatch
  | .error .duplicateSymbol => .duplicate
  | .error (.unknownSymbol _) => .unknownSym

/-- C3 counterexample: the input has a repeated element, yet strict decode
fails with the length-mismatch error, not the duplicate-symbol error: the
length check runs first. -/
theorem decode_strict_counterexample :
    ¬ (["a", "a"] : List String).Nodup ∧
    decode_sequence [("s", ["a", "b", "c"])] "s" ["a", "a"] true =
      .error (.lengthMismatch 2 3) ∧
    outcomeOf (decode_sequence [("s", ["a", "b", "c"])] "s" ["a", "a"] true) ≠
      .duplicate :=
  ⟨by decide, by decide, by decide⟩

/-- C3 (amended): with strict=true the validation checks run in a fixed
order, the first failing one determining the error: unknown sequence when
no nonempty Sequence is stored under the name (an empty stored list counts
as unregistered); otherwise length mismatch when the input length differs
from the stored length; otherwise duplicate symbol when the input repeats
an element; otherwise unknown symbol when some input symbol is absent from
the stored sequence; otherwise decode succeeds. -/
theorem decode_strict_outcome (seqs : Coll) (name : String) (input : List String) :
    outcomeOf (decode_sequence seqs name input true) =
      (if (lookupColl seqs name).getD [] = [] then .unknownSeq
       else if input.length ≠ ((lookupColl seqs name).getD []).length then
         .lengthMismatch
       else if ¬ input.Nodup then .duplicate
       else if ∀ k ∈ input, k ∈ (lookupColl seqs name).getD [] then .success
       else .unknownSym) := by
  rw [decode_sequence]
  by_cases hkeys : (lookupColl seqs name).getD [] = []
  · rw [if_pos hkeys, if_pos hkeys]
    rfl
  · rw [if_neg hkeys, if_neg hkeys]
    simp only [if_true]
    by_cases hlen : input.length ≠ ((lookupColl seqs name).getD []).length
    · rw [if_pos hlen, if_pos hlen]
      rfl
    · rw [if_neg hlen, if_neg hlen]
      by_cases hnd : input.Nodup
      · rw [if_neg (fun hc => hc (length_eq_dedup_length_iff.mpr hnd)),
          if_neg (fun hc => hc hnd)]
        by_cases hmem : ∀ k ∈ input, k ∈ (lookupColl seqs name).getD []
        · rw [if_pos hmem]
          rcases mapSymbols_isOk_of_mem input hmem with ⟨out, hout⟩
          rw [hout]
          rfl
        · rw [if_neg hmem]
          push_neg at hmem
          rcases mapSymbols_error_of_missing input hmem with ⟨s, _, _, herr⟩
          rw [herr]
          rfl
      · rw [if_pos (fun hc => hnd (length_eq_dedup_length_iff.mp hc)),
          if_pos hnd]
        rfl

/-- C4 counterexample: with strict=false and the stored sequence found, an
input symbol absent from the stored sequence is not passed through: decode
fails with the unknown-symbol error (the try/except in decode_sequence is
outside the `if strict` block). -/
theorem decode_nonstrict_counterexample :
    decode_sequence [("s", ["a", "b"])] "s" ["x"] false =
      .error (.unknownSymbol "x") ∧
    decode_sequence [("s", ["a", "b"])] "s" ["x"] false ≠ .ok ["x"] :=
  ⟨by decide, by decide⟩

/-- C4 (amended): with strict=false and a nonempty stored Sequence found,
decode skips the length and duplicate checks: on any input list all of
whose symbols occur in the stored sequence (repeats and any length
allowed) it succeeds, mapping each symbol to its canonical label; but as
soon as some input symbol is absent from the stored sequence it fails with
the unknown-symbol error instead of passing the symbol through. -/
theorem decode_nonstrict_spec (seqs : Coll) (name : String) (keys : List String)
    (hfind : lookupColl seqs name = some keys) (hne : keys ≠ [])
    (hnd : keys.Nodup) :
    (∀ input : List String, (∀ k ∈ input, k ∈ keys) →
       decode_sequence seqs name input false =
         .ok (input.map (fun k => seq_num_formatter (keys.indexOf k + 1)))) ∧
    (∀ input : List String, (∃ k ∈ input, k ∉ keys) →
       ∃ s ∈ input, s ∉ keys ∧
         decode_sequence seqs name input false = .error (.unknownSymbol s)) := by
  constructor
  · intro input hmem
    rw [decode_sequence]
    simp only [hfind, Option.getD_some]
    rw [if_neg hne, if_neg (by simp), mapSymbols_of_nodup hnd input hmem]
  · intro input hex
    rcases mapSymbols_error_of_missing input hex with ⟨s, hs, hns, herr⟩
    refine ⟨s, hs, hns, ?_⟩
    rw [decode_sequence]
    simp only [hfind, Option.getD_some]
    rw [if_neg hne, if_neg (by simp), herr]

theorem decode_nonstrict_spec_witness :
    lookupColl [("s", ["a", "b"])] "s" = some ["a", "b"] ∧
    (["a", "b"] : List String) ≠ [] ∧
    (["a", "b"] : List String).Nodup ∧
    decode_sequence [("s", ["a", "b"])] "s" ["b", "b", "a"] false =
      .ok ["02", "02", "01"] := by
  refine ⟨rfl, by decide, by decide, ?_⟩
  have h := (decode_nonstrict_spec [("s", ["a", "b"])] "s" ["a", "b"] rfl
    (by decide) (by decide)).1 ["b", "b", "a"] (by decide)
  simpa using h

/-- AnalyzerBase.sort from src/src/analysis (the init module):
`sorted(images, key=image -> self.rate(image, orig), reverse=self.big_similar)`.
CPython's builtin sorted is documented as a stable sort, and with
reverse=True it is the stable sort by descending key (ties are not
reversed), so both directions are modelled as insertion sort on the
corresponding non-strict key relation.  The float score is modelled as a
value in an arbitrary linear order (floats, with NaN excluded by the
metric contract, are linearly ordered). -/
def AnalyzerBase.sort {Img Ref Score : Type} [LinearOrder Score]
    (rate : Img → Ref → Score) (big_similar : Bool) (images : List Img)
    (orig : Ref) : List Img :=
  if big_similar then
    images.insertionSort (fun a b => rate b orig ≤ rate a orig)
  else
    images.insertionSort (fun a b => rate a orig ≤ rate b orig)

theorem pairwise_orderedInsert {α : Type} (r : α → α → Prop) [DecidableRel r]
    (S : α → α → Prop) (x : α) (hx : ∀ z, ¬ r x z → S z x) :
    ∀ l : List α, (∀ y ∈ l, S x y) → l.Pairwise S →
      (l.orderedInsert r x).Pairwise S := by
  intro l
  induction l with
  | nil =>
    intro _ _
    exact List.pairwise_singleton S x
  | cons y ys ih =>
    intro hall hp
    by_cases h : r x y
    · rw [List.orderedInsert, if_pos h]
      exact List.Pairwise.cons hall hp
    · rw [List.orderedInsert, if_neg h]
      refine List.Pairwise.cons ?_
        (ih (fun z hz => hall z (List.mem_cons_of_mem y hz)) hp.of_cons)
      intro w hw
      rcases (List.mem_orderedInsert _).mp hw with hwx | hwys
      · exact hwx ▸ hx y h
      · exact (List.pairwise_cons.mp hp).1 w hwys

theorem pairwise_insertionSort {α : Type} (r : α → α → Prop) [DecidableRel r]
    (S : α → α → Prop) (hglob : ∀ a b, ¬ r a b → S b a) :
    ∀ l : List α, l.Pairwise S → (l.insertionSort r).Pairwise S := by
  intro l
  induction l with
  | nil => intro _; exact List.Pairwise.nil
  | cons x xs ih =>
    intro hl
    rw [List.insertionSort]
    refine pairwise_orderedInsert r S x (fun z hz => hglob x z hz) _ ?_ (ih hl.of_cons)
    intro y hy
    exact (List.pairwise_cons.mp hl).1 y ((List.mem_insertionSort _).mp hy)

/-- C2: AnalyzerBase.sort is a stable sort by the metric score: the output
is a permutation of the input, it is sorted by score (descending when
big_similar is true, ascending when it is false), and any two entries
whose scores are equal keep their original relative input order, in both
directions.  Inputs are tagged with their position index to express the
original order. -/
theorem analyzer_sort_stable {Img Ref Score : Type} [LinearOrder Score]
    (rate : Img → Ref → Score) (big_similar : Bool) (orig : Ref)
    (xs : List (Nat × Img))
    (hidx : xs.Pairwise (fun p q => p.1 < q.1)) :
    List.Perm (AnalyzerBase.sort (fun p (o : Ref) => rate p.2 o) big_similar xs orig) xs ∧
    (AnalyzerBase.sort (fun p (o : Ref) => rate p.2 o) big_similar xs orig).Pairwise
      (fun p q =>
        (if big_similar then rate q.2 orig ≤ rate p.2 orig
         else rate p.2 orig ≤ rate q.2 orig) ∧
        (rate p.2 orig = rate q.2 orig → p.1 < q.1)) := by
  have hS : xs.Pairwise
      (fun p q : Nat × Img => rate p.2 orig = rate q.2 orig → p.1 < q.1) :=
    hidx.imp (fun h => fun _ => h)
  cases big_similar with
  | true =>
    rw [AnalyzerBase.sort, if_pos rfl]
    refine ⟨List.perm_insertionSort _ xs, ?_⟩
    haveI : IsTotal (Nat × Img) (fun a b => rate b.2 orig ≤ rate a.2 orig) :=
      ⟨fun a b => le_total _ _⟩
    haveI : IsTrans (Nat × Img) (fun a b => rate b.2 orig ≤ rate a.2 orig) :=
      ⟨fun _ _ _ hab hbc => le_trans hbc hab⟩
    have hsorted := List.sorted_insertionSort
      (fun a b : Nat × Img => rate b.2 orig ≤ rate a.2 orig) xs
    have hstab := pairwise_insertionSort
      (fun a b : Nat × Img => rate b.2 orig ≤ rate a.2 orig)
      (fun p q : Nat × Img => rate p.2 orig = rate q.2 orig → p.1 < q.1)
      (fun a b hr => fun heq => absurd (le_of_eq heq) hr) xs hS
    have := hsorted.and hstab
    refine this.imp ?_
    intro p q hpq
    exact ⟨by simpa using hpq.1, hpq.2⟩
  | false =>
    rw [AnalyzerBase.sort, if_neg Bool.false_ne_true]
    refine ⟨List.perm_insertionSort _ xs, ?_⟩
    haveI : IsTotal (Nat × Img) (fun a b => rate a.2 orig ≤ rate b.2 orig) :=
      ⟨fun a b => le_total _ _⟩
    haveI : IsTrans (Nat × Img) (fun a b => rate a.2 orig ≤ rate b.2 orig) :=
      ⟨fun _ _ _ hab hbc => le_trans hab hbc⟩
    have hsorted := List.sorted_insertionSort
      (fun a b : Nat × Img => rate a.2 orig ≤ rate b.2 orig) xs
    have hstab := pairwise_insertionSort
      (fun a b : Nat × Img => rate a.2 orig ≤ rate b.2 orig)
      (fun p q : Nat × Img => rate p.2 orig = rate q.2 orig → p.1 < q.1)
      (fun a b hr => fun heq => absurd (le_of_eq heq.symm) hr) xs hS
    have := hsorted.and hstab
    refine this.imp ?_
    intro p q hpq
    exact ⟨by simpa using hpq.1, hpq.2⟩

theorem analyzer_sort_stable_witness :
    ([(0, 5), (1, 7)] : List (Nat × Int)).Pairwise (fun p q => p.1 < q.1) ∧
    (List.Perm
        (AnalyzerBase.sort
          (fun (p : Nat × Int) (o : Int) => (fun (_i : Int) (_ : Int) => (0 : Int)) p.2 o)
          true [(0, 5), (1, 7)] 0)
        [(0, 5), (1, 7)] ∧
      (AnalyzerBase.sort
          (fun (p : Nat × Int) (o : Int) => (fun (_i : Int) (_ : Int) => (0 : Int)) p.2 o)
          true [(0, 5), (1, 7)] 0).Pairwise
        (fun p q =>
          (if true then
            (fun (_i : Int) (_ : Int) => (0 : Int)) q.2 0 ≤
              (fun (_i : Int) (_ : Int) => (0 : Int)) p.2 0
           else
            (fun (_i : Int) (_ : Int) => (0 : Int)) p.2 0 ≤
              (fun (_i : Int) (_ : Int) => (0 : Int)) q.2 0) ∧
          ((fun (_i : Int) (_ : Int) => (0 : Int)) p.2 0 =
              (fun (_i : Int) (_ : Int) => (0 : Int)) q.2 0 → p.1 < q.1))) :=
  ⟨by decide,
    analyzer_sort_stable (fun (_i : Int) (_ : Int) => (0 : Int)) true 0
      [(0, 5), (1, 7)] (by decide)⟩

/-- One data row of an agent's sorted-order csv file: the composite first
column already split at the subfield delimiter into category and
transformation, followed by the observed order. -/
structure DataRow where
  category : String
  transformation : String
  order : List String

/-- An agent's parsed sorted-order csv file: the header row (whose tail is
the reference order) and the data rows. -/
structure AgentFile where
  header : List String
  rows : List DataRow

/-- One output row of rank.csv (after the header line): agent, category,
transformation and the spearmanr result pair, the latter kept abstract. -/
structure RankRow (γ : Type) where
  agent : String
  category : String
  transformation : String
  result : γ

/-- rank_standard from src/src/commands/data.py (the CorrelationReport
builder with agent selection).  The external scipy.stats.spearmanr call is
the parameter sp, applied to the reference order (the header row minus its
first cell) and the row's order; agentData agent is the parsed csv file at
agent2file(agent), none when that path is not an existing csv (the
`continue` branch).  The two `continue` filters translate Python
truthiness: a row is skipped only when the filter list is nonempty and
does not contain the row's category resp. transformation. -/
def rank_standard {γ : Type} (sp : List String → List String → γ)
    (agents : List String) (agentData : String → Option AgentFile)
    (categories transformations : List String) : List (RankRow γ) :=
  agents.flatMap (fun agent =>
    match agentData agent with
    | none => []
    | some f =>
      f.rows.filterMap (fun row =>
        if categories ≠ [] ∧ row.category ∉ categories then none
        else if transformations ≠ [] ∧ row.transformation ∉ transformations then none
        else some ⟨agent, row.category, row.transformation,
          sp (f.header.drop 1) row.order⟩))

/-- C7: invoked with an empty category filter and an empty transformation
filter, rank_standard filters nothing: it emits one correlation row for
every (category, transformation) row present in each selected agent's
sorted-order data (empty filter means no restriction). -/
theorem rank_standard_empty_filters {γ : Type} (sp : List String → List String → γ)
    (agents : List String) (agentData : String → Option AgentFile) :
    rank_standard sp agents agentData [] [] =
      agents.flatMap (fun agent =>
        match agentData agent with
        | none => []
        | some f =>
          f.rows.map (fun row => ⟨agent, row.category, row.transformation,
            sp (f.header.drop 1) row.order⟩)) := by
  induction agents with
  | nil => rfl
  | cons a as ih =>
    rw [rank_standard] at ih
    rw [rank_standard, List.flatMap_cons, List.flatMap_cons, ih]
    congr 1
    cases agentData a with
    | none => rfl
    | some f =>
      show f.rows.filterMap _ = f.rows.map _
      induction f.rows with
      | nil => rfl
      | cons row rows ihr =>
        rw [List.filterMap_cons, List.map_cons,
          if_neg (fun hc => hc.1 rfl), if_neg (fun hc => hc.1 rfl), ihr]

/-- One input file of raw survey data for the decode command: its file
name and its data rows, each row a sequence name followed by the rater's
encoded answer order. -/
structure RawFile where
  name : String
  rows : List (String × List String)

/-- What decode_command does with one row: on success the decoded row is
written; a SequenceError is caught, echoed with the input path and the
offending sequence name, and the row is skipped. -/
inductive RowResult
  | written (seqName : String) (decoded : List String)
  | reported (fileName seqName : String) (e : SequenceError)
  deriving DecidableEq, Repr

/-- The body of the per-row try/except in decode_command
(src/src/commands/data.py): decode_sequence is called in strict mode
(its default). -/
def processRow (store : Coll) (fileName : String)
    (r : String × List String) : RowResult :=
  match decode_sequence store r.1 r.2 true with
  | .ok out => .written r.1 out
  | .error e => .reported fileName r.1 e

/-- decode_command from src/src/commands/data.py: every selected raw file
is processed, and within each file every row is processed. -/
def decode_command (store : Coll) (files : List RawFile) : List (List RowResult) :=
  files.map (fun f => f.rows.map (processRow store f.name))

/-- C9: the batch structure of decode_command is total: each input file
yields exactly one output, covering each of its rows in order; a row whose
strict decode fails with a SequenceError produces a report carrying the
file name and the offending sequence name, while every other row is
written decoded — so a malformed row never aborts the remaining rows or
the remaining files. -/
theorem decode_command_isolates_failures (store : Coll) (files : List RawFile) :
    List.Forall₂ (fun (f : RawFile) (outs : List RowResult) =>
      List.Forall₂ (fun (r : String × List String) (res : RowResult) =>
        (∃ out, decode_sequence store r.1 r.2 true = .ok out ∧
          res = .written r.1 out) ∨
        (∃ e, decode_sequence store r.1 r.2 true = .error e ∧
          res = .reported f.name r.1 e))
        f.rows outs)
      files (decode_command store files) := by
  rw [decode_command, List.forall₂_map_right_iff, List.forall₂_same]
  intro f _
  rw [List.forall₂_map_right_iff, List.forall₂_same]
  intro r _
  rw [processRow]
  cases h : decode_sequence store r.1 r.2 true with
  | ok out => exact Or.inl ⟨out, rfl, rfl⟩
  | error e => exact Or.inr ⟨e, rfl, rfl⟩

/-- The mutable state of the sequence store module
(src/src/commands/sequence.py): the contents of sequences.json on disk
(none when the file does not exist) and the module-global sequences_cache
(initially the empty dict). -/
structure StoreState where
  file : Option Coll
  cache : Coll

/-- read_sequences: return the cache when it is truthy (nonempty dict);
otherwise read the file, populating the cache, or return the empty dict
when the file does not exist (without populating the cache). -/
def read_sequences (s : StoreState) : Coll × StoreState :=
  if s.cache ≠ [] then (s.cache, s)
  else
    match s.file with
    | none => ([], s)
    | some c => (c, ⟨s.file, c⟩)

/-- read_sequence: lookup of one name in the result of read_sequences. -/
def read_sequence (name : String) (s : StoreState) :
    Option (List String) × StoreState :=
  (lookupColl (read_sequences s).1 name, (read_sequences s).2)

/-- Python dict update on the association list: an existing binding for
the key is replaced in place, a new key is appended at the end. -/
def insertColl : Coll → String → List String → Coll
  | [], name, v => [(name, v)]
  | (k, w) :: t, name, v =>
    if k = name then (name, v) :: t else (k, w) :: insertColl t name v

/-- Python dict pop: the binding for the key is removed (dict keys are
unique, so removing the first match suffices). -/
def eraseColl : Coll → String → Coll
  | [], _ => []
  | (k, w) :: t, name => if k = name then t else (k, w) :: eraseColl t name

/-- write_sequences: write the collection to the file and update the
module-global cache. -/
def write_sequences (c : Coll) (_s : StoreState) : StoreState := ⟨some c, c⟩

/-- write_sequence: write_sequences of read_sequences() updated with the
new binding. -/
def write_sequence (name : String) (seq : List String) (s : StoreState) : StoreState :=
  write_sequences (insertColl (read_sequences s).1 name seq) (read_sequences s).2

/-- remove_sequence: pop the name from read_sequences() and write the
result back, returning the removed entry. -/
def remove_sequence (name : String) (s : StoreState) :
    Option (List String) × StoreState :=
  (lookupColl (read_sequences s).1 name,
    write_sequences (eraseColl (read_sequences s).1 name) (read_sequences s).2)

/-- The store's write operations: writing a whole collection, writing one
sequence under a name, removing a name. -/
inductive WriteOp
  | putAll (c : Coll)
  | put (name : String) (seq : List String)
  | del (name : String)

def applyWrite : WriteOp → StoreState → StoreState
  | .putAll c, s => write_sequences c s
  | .put name seq, s => write_sequence name seq s
  | .del name, s => (remove_sequence name s).2

/-- The collection a write operation commits. -/
def writtenColl : WriteOp → StoreState → Coll
  | .putAll c, _ => c
  | .put name seq, s => insertColl (read_sequences s).1 name seq
  | .del name, s => eraseColl (read_sequences s).1 name

/-- States reachable from s by performing reads only (read_sequences or
read_sequence, which share the same state effect). -/
inductive ReadReach : StoreState → StoreState → Prop
  | refl (s : StoreState) : ReadReach s s
  | step (s t : StoreState) : ReadReach s t → ReadReach s (read_sequences t).2

/-- The coherence invariant: the file holds the collection c and the cache
equals it. -/
def StoreInv (c : Coll) (s : StoreState) : Prop :=
  s.file = some c ∧ s.cache = c

theorem read_sequences_of_inv {c : Coll} {s : StoreState} (h : StoreInv c s) :
    (read_sequences s).1 = c ∧ StoreInv c (read_sequences s).2 := by
  rcases h with ⟨hfile, hcache⟩
  by_cases hc : c = []
  · subst hc
    rw [read_sequences, if_neg (fun hne => hne hcache), hfile]
    exact ⟨rfl, rfl, rfl⟩
  · rw [read_sequences, if_pos (by rw [hcache]; exact hc)]
    exact ⟨hcache, hfile, hcache⟩

theorem storeInv_applyWrite (op : WriteOp) (s : StoreState) :
    StoreInv (writtenColl op s) (applyWrite op s) := by
  cases op with
  | putAll c => exact ⟨rfl, rfl⟩
  | put name seq => exact ⟨rfl, rfl⟩
  | del name => exact ⟨rfl, rfl⟩

/-- C8: after any successful write (a whole-collection write, a single
sequence write, or a removal), every state reachable by subsequent reads
returns exactly the collection committed by that latest write —
read_sequences yields it and read_sequence yields its lookup — so the
internal cache is never observable as a stale value. -/
theorem store_reads_latest_write (s : StoreState) (op : WriteOp) (t : StoreState)
    (hreach : ReadReach (applyWrite op s) t) :
    (read_sequences t).1 = writtenColl op s ∧
    (∀ name, (read_sequence name t).1 = lookupColl (writtenColl op s) name) := by
  have hinv : StoreInv (writtenColl op s) t := by
    induction hreach with
    | refl => exact storeInv_applyWrite op s
    | step u hu ih => exact (read_sequences_of_inv ih).2
  refine ⟨(read_sequences_of_inv hinv).1, fun name => ?_⟩
  rw [read_sequence]
  simp only [(read_sequences_of_inv hinv).1]

theorem store_reads_latest_write_witness :
    ReadReach (applyWrite (WriteOp.put "a" ["x", "y"]) ⟨none, []⟩)
      (applyWrite (WriteOp.put "a" ["x", "y"]) ⟨none, []⟩) ∧
    ((read_sequences (applyWrite (WriteOp.put "a" ["x", "y"]) ⟨none, []⟩)).1 =
        writtenColl (WriteOp.put "a" ["x", "y"]) ⟨none, []⟩ ∧
      (∀ name, (read_sequence name
          (applyWrite (WriteOp.put "a" ["x", "y"]) ⟨none, []⟩)).1 =
        lookupColl (writtenColl (WriteOp.put "a" ["x", "y"]) ⟨none, []⟩) name)) :=
  ⟨ReadReach.refl _,
    store_reads_latest_write ⟨none, []⟩ (WriteOp.put "a" ["x", "y"]) _
      (ReadReach.refl _)⟩

/-- Modelled from the spec: the repository's RankCorrelator is the external
scipy.stats.spearmanr call in rank_standard (src/src/commands/data.py); its
body is not part of src/, so the correlator is modelled from the
specification's algorithm statement.  avgRank l x is the 1-based rank of x
within l with average ranks for ties: the number of strictly smaller
elements plus the mean of the positions the copies of x occupy. -/
def avgRank {α : Type} [LinearOrder α] (l : List α) (x : α) : ℚ :=
  (l.countP (fun y => decide (y < x)) : ℚ) +
    ((l.countP (fun y => decide (y = x)) : ℚ) + 1) / 2

/-- Modelled from the spec: convert a sequence's elements to rank
positions using average ranks for ties. -/
def toRanks {α : Type} [LinearOrder α] (l : List α) : List ℚ := l.map (avgRank l)

def qmean (l : List ℚ) : ℚ := l.sum / l.length

def devs (l : List ℚ) : List ℚ := l.map (fun v => v - qmean l)

/-- Sum of products of deviations from the mean (the covariance numerator). -/
def sxy (x y : List ℚ) : ℚ :=
  (List.zipWith (fun a b => a * b) (devs x) (devs y)).sum

/-- Modelled from the spec: the Pearson correlation of two rank sequences,
in the real-number idealisation of float arithmetic. -/
noncomputable def pearson (x y : List ℚ) : ℝ :=
  ((sxy x y : ℚ) : ℝ) /
    (Real.sqrt ((sxy x x : ℚ) : ℝ) * Real.sqrt ((sxy y y : ℚ) : ℝ))

/-- Modelled from the spec: the t-approximation statistic
t = coefficient * sqrt of ((n - 2) / (1 - coefficient squared)). -/
noncomputable def tstat (c : ℝ) (n : ℕ) : ℝ :=
  c * Real.sqrt (((n : ℝ) - 2) / (1 - c ^ 2))

inductive CorrError
  | incompatibleOrders
  deriving DecidableEq, Repr

/-- Modelled from the spec: correlate(referenceOrder, observedOrder).
Fails with IncompatibleOrders unless the two orders are the same multiset
(same length, same elements); returns none — modelling the (NaN, NaN)
result pair — when n < 3; otherwise returns the Spearman coefficient (the
Pearson correlation of the average-rank sequences) and the two-sided
p-value 2 * (1 - CDF_t of |t| at n - 2 degrees of freedom), with the
t-distribution CDF of the external statistics library abstracted as the
parameter cdf. -/
noncomputable def correlate {α : Type} [LinearOrder α] (cdf : ℝ → ℕ → ℝ)
    (x y : List α) : Except CorrError (Option (ℝ × ℝ)) :=
  if ¬ List.Perm x y then .error .incompatibleOrders
  else if x.length < 3 then .ok none
  else
    .ok (some (pearson (toRanks x) (toRanks y),
      2 * (1 - cdf |tstat (pearson (toRanks x) (toRanks y)) x.length|
        (x.length - 2))))

/-- C6: on any two orders of equal length n < 3 satisfying the
correlator's same-multiset precondition, correlate reports the degenerate
case — the (NaN, NaN) pair, modelled as none — rather than failing. -/
theorem correlate_small_n {α : Type} [LinearOrder α] (cdf : ℝ → ℕ → ℝ)
    (x y : List α) (hperm : List.Perm x y) (hn : x.length < 3) :
    correlate cdf x y = .ok none := by
  rw [correlate, if_neg (not_not.mpr hperm), if_pos hn]

theorem correlate_small_n_witness :
    List.Perm ([1, 2] : List ℤ) [2, 1] ∧ ([1, 2] : List ℤ).length < 3 ∧
    correlate (fun _ _ => (0 : ℝ)) ([1, 2] : List ℤ) [2, 1] = .ok none :=
  ⟨by decide, by decide,
    correlate_small_n (fun _ _ => (0 : ℝ)) [1, 2] [2, 1] (by decide) (by decide)⟩

theorem countP_lt_add_countP_eq_le {α : Type} [LinearOrder α] {a b : α}
    (hab : a < b) (l : List α) :
    l.countP (fun y => decide (y < a)) + l.countP (fun y => decide (y = a)) ≤
      l.countP (fun y => decide (y < b)) := by
  have hone : (if (true : Bool) = true then (1 : ℕ) else 0) = 1 := if_pos rfl
  have hzero : (if (false : Bool) = true then (1 : ℕ) else 0) = 0 :=
    if_neg Bool.false_ne_true
  induction l with
  | nil => simp
  | cons x t ih =>
    rw [List.countP_cons, List.countP_cons, List.countP_cons]
    rcases lt_trichotomy x a with h1 | h1 | h1
    · rw [decide_eq_true h1, decide_eq_false (ne_of_lt h1),
        decide_eq_true (lt_trans h1 hab)]
      simp only [hone, hzero]
      omega
    · rw [decide_eq_false (by rw [h1]; exact lt_irrefl a), decide_eq_true h1,
        decide_eq_true (h1 ▸ hab)]
      simp only [hone, hzero]
      omega
    · rw [decide_eq_false (lt_asymm h1), decide_eq_false (ne_of_gt h1)]
      by_cases h3 : x < b
      · rw [decide_eq_true h3]
        simp only [hone, hzero]
        omega
      · rw [decide_eq_false h3]
        simp only [hone, hzero]
        omega

theorem avgRank_lt_avgRank {α : Type} [LinearOrder α] {l : List α} {a b : α}
    (ha : a ∈ l) (hb : b ∈ l) (hab : a < b) : avgRank l a < avgRank l b := by
  have hkey := countP_lt_add_countP_eq_le hab l
  have hca : 0 < l.countP (fun y => decide (y = a)) :=
    List.countP_pos_iff.mpr ⟨a, ha, decide_eq_true rfl⟩
  have hcb : 0 < l.countP (fun y => decide (y = b)) :=
    List.countP_pos_iff.mpr ⟨b, hb, decide_eq_true rfl⟩
  rw [avgRank, avgRank]
  have h1 : (l.countP (fun y => decide (y < a)) : ℚ) +
      (l.countP (fun y => decide (y = a)) : ℚ) ≤
      (l.countP (fun y => decide (y < b)) : ℚ) := by
    exact_mod_cast hkey
  have h2 : (1 : ℚ) ≤ (l.countP (fun y => decide (y = a)) : ℚ) := by
    exact_mod_cast hca
  have h3 : (1 : ℚ) ≤ (l.countP (fun y => decide (y = b)) : ℚ) := by
    exact_mod_cast hcb
  linarith

theorem zipWith_mul_self (l : List ℚ) :
    List.zipWith (fun a b => a * b) l l = l.map (fun a => a * a) := by
  induction l with
  | nil => rfl
  | cons x t ih => rw [List.zipWith_cons_cons, List.map_cons, ih]

theorem sxx_pos_of_two_ne {x : List ℚ} {r1 r2 : ℚ} (h1 : r1 ∈ x) (h2 : r2 ∈ x)
    (hne : r1 ≠ r2) : 0 < sxy x x := by
  have hex : ∃ r ∈ x, r ≠ qmean x := by
    by_cases hq : r1 = qmean x
    · exact ⟨r2, h2, fun hc => hne (hq.trans hc.symm)⟩
    · exact ⟨r1, h1, hq⟩
  rcases hex with ⟨r, hr, hrne⟩
  rw [sxy, zipWith_mul_self]
  have hmem : (r - qmean x) * (r - qmean x) ∈ (devs x).map (fun a => a * a) :=
    List.mem_map.mpr ⟨r - qmean x, List.mem_map.mpr ⟨r, hr, rfl⟩, rfl⟩
  have hpos : 0 < (r - qmean x) * (r - qmean x) :=
    mul_self_pos.mpr (sub_ne_zero.mpr hrne)
  have hle := List.single_le_sum
    (fun q hq => by
      rcases List.mem_map.mp hq with ⟨d, _, rfl⟩
      exact mul_self_nonneg d)
    _ hmem
  exact lt_of_lt_of_le hpos hle

theorem pearson_self_eq_one {x : List ℚ} (hpos : 0 < sxy x x) :
    pearson x x = 1 := by
  rw [pearson, Real.mul_self_sqrt (by exact_mod_cast le_of_lt hpos)]
  have hne : ((sxy x x : ℚ) : ℝ) ≠ 0 := by exact_mod_cast ne_of_gt hpos
  exact div_self hne

/-- C5 (amended): for every order of length at least 3 that contains two
distinct labels (repeats otherwise permitted), correlating the order with
itself yields coefficient exactly 1; a constant order is excluded because
its rank sequence has zero variance and the Pearson quotient degenerates
(NaN in floating point). -/
theorem correlate_self_eq_one {α : Type} [LinearOrder α] (cdf : ℝ → ℕ → ℝ)
    (l : List α) (hn : 3 ≤ l.length) (a b : α) (ha : a ∈ l) (hb : b ∈ l)
    (hab : a ≠ b) :
    ∃ p : ℝ, correlate cdf l l = .ok (some (1, p)) := by
  have hr : 0 < sxy (toRanks l) (toRanks l) := by
    rcases hab.lt_or_lt with h | h
    · exact sxx_pos_of_two_ne (List.mem_map.mpr ⟨a, ha, rfl⟩)
        (List.mem_map.mpr ⟨b, hb, rfl⟩) (ne_of_lt (avgRank_lt_avgRank ha hb h))
    · exact sxx_pos_of_two_ne (List.mem_map.mpr ⟨b, hb, rfl⟩)
        (List.mem_map.mpr ⟨a, ha, rfl⟩) (ne_of_lt (avgRank_lt_avgRank hb ha h))
  have hc : pearson (toRanks l) (toRanks l) = 1 := pearson_self_eq_one hr
  refine ⟨2 * (1 - cdf |tstat 1 l.length| (l.length - 2)), ?_⟩
  rw [correlate, if_neg (not_not.mpr (List.Perm.refl l)), if_neg (not_lt.mpr hn), hc]

theorem correlate_self_eq_one_witness :
    3 ≤ ([1, 2, 3] : List ℤ).length ∧ (1 : ℤ) ∈ ([1, 2, 3] : List ℤ) ∧
    (2 : ℤ) ∈ ([1, 2, 3] : List ℤ) ∧ (1 : ℤ) ≠ 2 ∧
    ∃ p : ℝ, correlate (fun _ _ => (0 : ℝ)) ([1, 2, 3] : List ℤ) [1, 2, 3] =
      .ok (some (1, p)) :=
  ⟨by decide, by decide, by decide, by decide,
    correlate_self_eq_one (fun _ _ => (0 : ℝ)) [1, 2, 3] (by decide) 1 2
      (by decide) (by decide) (by decide)⟩

/-- C5 counterexample: the constant order of three equal labels is a length-3
order with repeats permitted by the claim, yet correlating it with itself
does not give coefficient 1: the rank sequence is constant, every deviation
is zero, and the Pearson quotient is the degenerate 0/0 (NaN in floating
point, the zero-division convention of the real model here). -/
theorem correlate_self_counterexample :
    correlate (fun _ _ => (0 : ℝ)) ([0, 0, 0] : List ℤ) [0, 0, 0] =
      .ok (some (0, 2)) ∧ (0 : ℝ) ≠ 1 := by
  constructor
  · have htr : toRanks ([0, 0, 0] : List ℤ) = [2, 2, 2] := by
      norm_num [toRanks, avgRank, List.countP_cons]
    have hdev : sxy [2, 2, 2] [2, 2, 2] = 0 := by
      norm_num [sxy, devs, qmean, List.zipWith_cons_cons]
    have hp : pearson [2, 2, 2] [2, 2, 2] = 0 := by
      rw [pearson, hdev]
      norm_num
    rw [correlate, if_neg (not_not.mpr (List.Perm.refl _)), if_neg (by norm_num),
      htr, hp]
    norm_num
  · norm_num

end TextureModel
